import Mathlib

/-!
Verification of the content-repository and quiz subsystem of the
huni-portfolio repository (`src/lib/projects.ts`, `src/components/quiz.tsx`,
`src/components/mdx-content.tsx`).

The TypeScript code is shallowly embedded:

* Strings are Lean `String`s (lists of characters); all string processing is
  done by executable char-list functions so that every definition computes.
* The external `gray-matter` library is modelled by `matter` below, restricted
  to the simple `key: value` scalar frontmatter this repository uses
  (delimiter lines that are exactly `---`, no YAML language tags, single
  scalar per line, matching surrounding quotes stripped).  Per the library's
  documented behaviour the returned content is the raw remainder of the text
  after the closing delimiter token (including the newline that follows the
  delimiter line), and a text with no leading delimiter parses to an empty
  field set with the whole text as content.
* `new Date(string)` is modelled by `parseISO`, covering the ISO
  `YYYY-MM-DD` form used by the repository's content; any other string
  (including the empty string produced by `a.date ?? ''`) yields `none`,
  which plays the role of JavaScript's `Invalid Date` (`NaN`): every `<`
  comparison involving it is false (`jsltDate`).
* `Array.prototype.sort` runs on Node/V8, whose TimSort reduces to (binary)
  insertion sort for the short arrays that occur here; `sortJS` is the
  corresponding stable left-to-right insertion sort, inserting each element
  `x` before the first earlier-kept element `y` with `cmp x y < 0`.  For
  arrays of length two — the size used by every concrete counterexample in
  this file — every engine performs the single comparison `cmp a1 a0` and
  reverses exactly when it is negative, which is precisely `sortJS`.  For
  comparators that are consistent (all publication dates present and
  parseable) any correct sort agrees with `sortJS`.
* The filesystem is passed explicitly: a directory listing is a list of
  `(fileName, contents)` pairs, and `fs.readFileSync` for a single path is a
  function `String → Except FsError String` (`Except.error` standing for a
  thrown exception).
* JavaScript objects produced from frontmatter are association lists
  (`Metadata`); `setKey` models the spread `{...data, slug}` (overwrite in
  place if the key exists, append otherwise) and `getKey` models property
  lookup.
-/

/-! ## Character-list string primitives -/

/-- Split a character list at newline characters.  Total and structurally
recursive; `splitOnNl l` always has at least one element (the text before the
first newline). -/
def splitOnNl : List Char → List (List Char)
  | [] => [[]]
  | c :: rest =>
    if c = '\n' then [] :: splitOnNl rest
    else
      match splitOnNl rest with
      | [] => [[c]]
      | l :: ls => (c :: l) :: ls

/-- Concatenation of lines, each preceded by the newline that separated it
from the previous line.  This is exactly the raw remainder of a text after a
line has been consumed. -/
def joinTail : List (List Char) → List Char
  | [] => []
  | l :: ls => '\n' :: (l ++ joinTail ls)

/-- Inverse of `splitOnNl`: the first line followed by the newline-prefixed
remaining lines. -/
def joinNl : List (List Char) → List Char
  | [] => []
  | l :: ls => l ++ joinTail ls

/-- Drop spaces from both ends of a character list (the trimming YAML applies
to keys and scalar values). -/
def trimSpaces (l : List Char) : List Char :=
  ((l.dropWhile (· = ' ')).reverse.dropWhile (· = ' ')).reverse

/-- Remove one matching pair of surrounding single or double quotes, as the
YAML scalar parser does for quoted scalars. -/
def stripQuotes (l : List Char) : List Char :=
  match l with
  | c :: rest =>
    if (c = '\'' ∨ c = '"') ∧ rest ≠ [] ∧ rest.getLast? = some c then
      rest.dropLast
    else c :: rest
  | [] => []

/-- Split a character list at its first colon, returning the parts before and
after it. -/
def splitFirstColon : List Char → Option (List Char × List Char)
  | [] => none
  | c :: rest =>
    if c = ':' then some ([], rest)
    else (splitFirstColon rest).map (fun p => (c :: p.1, p.2))

/-! ## Frontmatter model (gray-matter) -/

/-- A parsed JavaScript object: an association list in insertion order. -/
abbrev Metadata := List (String × String)

/-- Parse one `key: value` frontmatter line; lines without a colon or with an
empty key are skipped. -/
def parseLine (l : List Char) : Option (String × String) :=
  match splitFirstColon l with
  | none => none
  | some (k, v) =>
    let k' := trimSpaces k
    if k' = [] then none
    else some (⟨k'⟩, ⟨stripQuotes (trimSpaces v)⟩)

/-- Parse the lines between the frontmatter delimiters. -/
def parsePairs (ls : List (List Char)) : Metadata :=
  ls.filterMap parseLine

/-- Index of the first closing delimiter line (a line that is exactly
`---`). -/
def findCloseIdx : List (List Char) → Option Nat
  | [] => none
  | l :: ls =>
    if l = ['-', '-', '-'] then some 0 else (findCloseIdx ls).map (· + 1)

/-- Model of `gray-matter`'s `matter` function on this repository's
frontmatter: if the first line is exactly `---`, the lines up to the first
following `---` line are parsed as fields and the content is the raw
remainder of the text after that closing delimiter token; otherwise the text
has no frontmatter and is returned whole with an empty field set.  An
unclosed delimiter makes the whole remainder the frontmatter block and the
content empty, as in the library. -/
def matter (s : String) : Metadata × String :=
  match splitOnNl s.data with
  | [] => ([], s)
  | first :: rest =>
    if first = ['-', '-', '-'] then
      match findCloseIdx rest with
      | some i => (parsePairs (rest.take i), ⟨joinTail (rest.drop (i + 1))⟩)
      | none => (parsePairs rest, "")
    else ([], s)

/-! ## JavaScript object operations -/

/-- Property lookup on a JavaScript object modelled as an association list. -/
def getKey (m : Metadata) (k : String) : Option String :=
  match m with
  | [] => none
  | (k', v) :: rest => if k' = k then some v else getKey rest k

/-- The object spread `{...m, k: v}`: if `k` is already a key its value is
overwritten in place, otherwise the pair is appended. -/
def setKey (m : Metadata) (k : String) (v : String) : Metadata :=
  if m.any (fun p => p.1 = k) then
    m.map (fun p => if p.1 = k then (k, v) else p)
  else m ++ [(k, v)]

/-! ## Dates and the sort comparator -/

/-- Numeric value of a decimal digit character. -/
def digitVal (c : Char) : Nat := c.toNat - 48

/-- Model of `new Date(s)` for the ISO `YYYY-MM-DD` strings used by the
repository's content: a key that is monotone in calendar order, or `none`
(JavaScript's `Invalid Date`) for anything else. -/
def parseISO (s : String) : Option Nat :=
  match s.data with
  | [y1, y2, y3, y4, '-', m1, m2, '-', d1, d2] =>
    if (y1.isDigit ∧ y2.isDigit ∧ y3.isDigit ∧ y4.isDigit) ∧
        (m1.isDigit ∧ m2.isDigit ∧ d1.isDigit ∧ d2.isDigit) then
      let m := digitVal m1 * 10 + digitVal m2
      let d := digitVal d1 * 10 + digitVal d2
      let y := ((digitVal y1 * 10 + digitVal y2) * 10 + digitVal y3) * 10 + digitVal y4
      if 1 ≤ m ∧ m ≤ 12 ∧ 1 ≤ d ∧ d ≤ 31 then
        some ((y * 100 + m) * 100 + d)
      else none
    else none
  | _ => none

/-- The date key of a metadata record, as the comparator computes it:
`new Date(a.date ?? '')`.  A missing or unparseable date is `none`. -/
def dateVal (m : Metadata) : Option Nat :=
  parseISO ((getKey m "date").getD "")

/-- JavaScript `<` on date values: any comparison involving `Invalid Date`
(`NaN`) is false. -/
def jsltDate : Option Nat → Option Nat → Bool
  | some x, some y => x < y
  | _, _ => false

/-- The comparator passed to `sort` in `getProjects`
(src/lib/projects.ts:38-44): returns `1` when `new Date(a.date ?? '') <
new Date(b.date ?? '')` and `-1` otherwise.  It never returns `0`, and never
reports a record with an unparseable date as older. -/
def cmpProjects (a b : Metadata) : Int :=
  if jsltDate (dateVal a) (dateVal b) then 1 else -1

/-- Insert `x` before the first element `y` of the accumulated output with
`cmp x y < 0`, as V8's (binary) insertion sort does. -/
def insertJS {α : Type} (cmp : α → α → Int) (x : α) : List α → List α
  | [] => [x]
  | y :: ys => if cmp x y < 0 then x :: y :: ys else y :: insertJS cmp x ys

/-- Model of `Array.prototype.sort(cmp)` on Node/V8 for the short arrays of
this repository: left-to-right insertion sort (see the header comment). -/
def sortJS {α : Type} (cmp : α → α → Int) (l : List α) : List α :=
  l.foldl (fun acc x => insertJS cmp x acc) []

/-! ## The project collection (src/lib/projects.ts) -/

/-- A parsed project: metadata object plus body, as returned by
`getProjectBySlug`. -/
structure Project where
  metadata : Metadata
  content : String
deriving DecidableEq, Repr

/-- Reasons `fs.readFileSync` can throw. -/
inductive FsError where
  | notFound
  | ioError
deriving DecidableEq, Repr

/-- Remove a trailing `.mdx` from a character list (the regex replace
`/\.mdx$/`). -/
def stripMdxChars (l : List Char) : List Char :=
  if l.reverse.take 4 = ['x', 'd', 'm', '.'] then (l.reverse.drop 4).reverse
  else l

/-- The slug derived from a file name: the name with a trailing `.mdx`
removed (src/lib/projects.ts:53). -/
def stripMdx (s : String) : String := ⟨stripMdxChars s.data⟩

/-- Model of `getProjectMetadata` (src/lib/projects.ts:52-59): parse the
file's frontmatter and return `{...data, slug}` where `slug` is derived from
the file name.  The file's contents are passed explicitly in place of the
`readFileSync` call. -/
def getProjectMetadata (fileName : String) (contents : String) : Metadata :=
  setKey (matter contents).1 "slug" (stripMdx fileName)

/-- Model of `getProjects` (src/lib/projects.ts:33-50): map every file of
the collection directory through `getProjectMetadata`, sort with
`cmpProjects`, and apply `if (limit) return projects.slice(0, limit)` —
note that a `limit` of `0` is falsy, so it does not truncate. -/
def getProjects (files : List (String × String)) (limit : Option Nat) :
    List Metadata :=
  let projects := sortJS cmpProjects (files.map fun f => getProjectMetadata f.1 f.2)
  match limit with
  | some k => if k = 0 then projects else projects.take k
  | none => projects

/-- Model of `getProjectBySlug` (src/lib/projects.ts:20-31): read
`slug ++ ".mdx"`, parse it, and return `{metadata: {...data, slug}, content}`;
every thrown error is caught and turned into `null` (`none`). -/
def getProjectBySlug (fs : String → Except FsError String) (slug : String) :
    Option Project :=
  match fs (slug ++ ".mdx") with
  | Except.error _ => none
  | Except.ok contents =>
    let m := matter contents
    some ⟨setKey m.1 "slug" slug, m.2⟩

/-- First file of a directory listing with the given name. -/
def lookupFile (files : List (String × String)) (name : String) :
    Option String :=
  match files with
  | [] => none
  | f :: rest => if f.1 = name then some f.2 else lookupFile rest name

/-- The `readFileSync` function of a concrete directory listing: a missing
name throws `ENOENT`. -/
def fsOfList (files : List (String × String)) :
    String → Except FsError String :=
  fun name =>
    match lookupFile files name with
    | some c => Except.ok c
    | none => Except.error FsError.notFound

/-- Whether a file name ends in `.mdx`. -/
def endsWithMdx (s : String) : Bool :=
  s.data.reverse.take 4 = ['x', 'd', 'm', '.']

/-! ## The quiz component (src/components/quiz.tsx) -/

/-- A quiz question as supplied to the component. -/
structure QuizQuestion where
  question : String
  options : List String
  correctAnswer : Nat
deriving DecidableEq, Repr

/-- The component's local state: the three `useState` hooks of `Quiz`
(src/components/quiz.tsx:44-48). -/
structure QuizState where
  currentQuestion : Nat
  userAnswers : List (Option Nat)
  isQuizCompleted : Bool
deriving DecidableEq, Repr

/-- The state a mounting `Quiz` component is constructed with: question
index `0`, one `null` answer per question, not completed.  The component
performs no validation of its question list. -/
def initQuiz (questions : List QuizQuestion) : QuizState :=
  ⟨0, List.replicate questions.length none, false⟩

/-- The guard `showResult = selectedAnswer !== null`
(src/components/quiz.tsx:51-52).  Reading past the end of `userAnswers`
yields `undefined`, which also satisfies `!== null`. -/
def showResult (s : QuizState) : Bool :=
  match s.userAnswers.get? s.currentQuestion with
  | some none => false
  | _ => true

/-- Model of `handleAnswer` (src/components/quiz.tsx:55-62): a selection is
recorded only when the current question is still unanswered; otherwise the
call is a no-op. -/
def handleAnswer (s : QuizState) (index : Nat) : QuizState :=
  if showResult s then s
  else { s with userAnswers := s.userAnswers.set s.currentQuestion (some index) }

/-- Model of `nextQuestion` (src/components/quiz.tsx:64-70): on the last
question it marks the quiz completed, otherwise it increments the index.  It
performs no check that the current question has been answered.  The
`questions.length - 1` of the source is JavaScript number arithmetic, so it
is `-1` for an empty question list. -/
def nextQuestion (questions : List QuizQuestion) (s : QuizState) : QuizState :=
  if (s.currentQuestion : Int) = (questions.length : Int) - 1 then
    { s with isQuizCompleted := true }
  else
    { s with currentQuestion := s.currentQuestion + 1 }

/-- The advance action as it can actually be dispatched from the rendered
component: the Next/Finish button exists only inside the
`showResult && ...` block (src/components/quiz.tsx:115-125), so a click can
only occur — and `nextQuestion` only run — when the current question has
been answered. -/
def uiAdvance (questions : List QuizQuestion) (s : QuizState) : QuizState :=
  if showResult s then nextQuestion questions s else s

/-- Model of the score computation (src/components/quiz.tsx:73-77): the
number of indices whose recorded answer equals the question's correct
option; an unanswered (`null`) entry never equals a number. -/
def score (questions : List QuizQuestion) (answers : List (Option Nat)) : Nat :=
  (answers.zip questions).countP fun p => p.1 == some p.2.correctAnswer

/-! ## Spec-side definitions

These definitions follow the specification's words, not the source; each is
compared with the corresponding source-derived definition by the theorems
below. -/

/-- Spec order on two returned records, `date(A) >= date(B)` under the
missing-date-is-minimum rule: a record whose date is absent or unparseable
compares as earlier than any present date. -/
def specDateGe (a b : Metadata) : Bool :=
  match dateVal a, dateVal b with
  | some x, some y => y ≤ x
  | _, none => true
  | none, some _ => false

/-- Quiz construction as the specification describes it: an empty question
list, a question with zero options, or a `correctOptionIndex` out of range
for its option list fails fast with an `InvalidQuizDefinition` error. -/
def specQuizConstruct (questions : List QuizQuestion) :
    Except String QuizState :=
  if questions = [] then Except.error "InvalidQuizDefinition"
  else if questions.any (fun q =>
      q.options.length = 0 ∨ q.options.length ≤ q.correctAnswer) then
    Except.error "InvalidQuizDefinition"
  else Except.ok (initQuiz questions)

/-- The characters of one rendered `key: value` frontmatter line. -/
def lineData (p : String × String) : List Char :=
  p.1.data ++ ':' :: ' ' :: p.2.data

/-- A raw document assembled from a field list and a body: the opening
delimiter line, one `key: value` line per field, the closing delimiter line,
then the body. -/
def specMkDoc (fields : Metadata) (body : String) : String :=
  ⟨['-', '-', '-', '\n'] ++
    (fields.foldr
      (fun p acc => lineData p ++ '\n' :: acc)
      (['-', '-', '-', '\n'] ++ body.data))⟩

/-- Well-formedness of one frontmatter field for the round-trip statement:
the key is nonempty, contains no colon and no newline and no surrounding
spaces; the value contains no newline, no surrounding spaces, and no
surrounding quote pair (gray-matter would strip those). -/
def wfField (p : String × String) : Prop :=
  p.1.data ≠ [] ∧ ':' ∉ p.1.data ∧ '\n' ∉ p.1.data ∧
    trimSpaces p.1.data = p.1.data ∧
    '\n' ∉ p.2.data ∧ trimSpaces p.2.data = p.2.data ∧
    stripQuotes p.2.data = p.2.data

instance (p : String × String) : Decidable (wfField p) := by
  unfold wfField; infer_instance

/-! ## Concrete fixtures -/

/-- The specification's two-question quiz: four options each, correct
indices 0 and 2. -/
def sampleQuiz : List QuizQuestion :=
  [⟨"q1", ["a", "b", "c", "d"], 0⟩, ⟨"q2", ["e", "f", "g", "h"], 2⟩]

/-- A question whose `correctAnswer` is out of range for its four options. -/
def badQuestion : QuizQuestion := ⟨"q", ["a", "b", "c", "d"], 10⟩

/-- A two-file collection: the first file has a publication date, the
second has none. -/
def cexC1files : List (String × String) :=
  [("b.mdx", "---\ndate: 2024-01-02\n---\nB"),
    ("a.mdx", "---\ntitle: A\n---\nA")]

/-! ## Helper lemmas: line splitting -/

theorem splitOnNl_nil : splitOnNl [] = [[]] := rfl

theorem splitOnNl_newline (rest : List Char) :
    splitOnNl ('\n' :: rest) = [] :: splitOnNl rest := by
  simp [splitOnNl]

theorem splitOnNl_cons_of_ne (c : Char) (rest : List Char) (hc : c ≠ '\n')
    (s : List Char) (ss : List (List Char)) (h : splitOnNl rest = s :: ss) :
    splitOnNl (c :: rest) = (c :: s) :: ss := by
  unfold splitOnNl
  rw [if_neg hc, h]

theorem splitOnNl_ne_nil (l : List Char) : splitOnNl l ≠ [] := by
  induction l with
  | nil => simp [splitOnNl]
  | cons c rest ih =>
    by_cases hc : c = '\n'
    · subst hc; rw [splitOnNl_newline]; simp
    · cases h : splitOnNl rest with
      | nil => exact absurd h ih
      | cons s ss => rw [splitOnNl_cons_of_ne c rest hc s ss h]; simp

theorem splitOnNl_append_newline (l1 l2 : List Char) (h : '\n' ∉ l1) :
    splitOnNl (l1 ++ '\n' :: l2) = l1 :: splitOnNl l2 := by
  induction l1 with
  | nil => simp [splitOnNl_newline]
  | cons c cs ih =>
    have hc : c ≠ '\n' := fun hh => h (hh ▸ List.mem_cons_self c cs)
    have hcs : '\n' ∉ cs := fun hh => h (List.mem_cons_of_mem c hh)
    exact splitOnNl_cons_of_ne c (cs ++ '\n' :: l2) hc cs (splitOnNl l2) (ih hcs)

theorem joinTail_cons (l : List Char) (ls : List (List Char)) :
    joinTail (l :: ls) = '\n' :: (l ++ joinTail ls) := rfl

theorem joinTail_splitOnNl (l : List Char) :
    joinTail (splitOnNl l) = '\n' :: l := by
  induction l with
  | nil => simp [splitOnNl_nil, joinTail]
  | cons c rest ih =>
    by_cases hc : c = '\n'
    · subst hc
      rw [splitOnNl_newline, joinTail_cons]
      simp [ih]
    · cases h : splitOnNl rest with
      | nil => exact absurd h (splitOnNl_ne_nil rest)
      | cons s ss =>
        rw [splitOnNl_cons_of_ne c rest hc s ss h, joinTail_cons]
        rw [h, joinTail_cons] at ih
        have hs : s ++ joinTail ss = rest := by
          simpa using ih
        simp [hs]

/-! ## Helper lemmas: `.mdx` suffix stripping -/

theorem stripMdx_append (s : String) : stripMdx (s ++ ".mdx") = s := by
  apply String.ext
  show stripMdxChars (s ++ ".mdx").data = s.data
  have hd : (s ++ ".mdx").data = s.data ++ ['.', 'm', 'd', 'x'] := by
    rw [String.data_append]
  have key : (s.data ++ ['.', 'm', 'd', 'x']).reverse =
      ['x', 'd', 'm', '.'] ++ s.data.reverse := by simp
  have hlen : (['x', 'd', 'm', '.'] : List Char).length = 4 := rfl
  unfold stripMdxChars
  rw [hd, key, List.take_left' hlen, if_pos rfl, List.drop_left' hlen,
    List.reverse_reverse]

theorem mdx_decomp (s : String) (h : endsWithMdx s = true) :
    s = stripMdx s ++ ".mdx" := by
  have h' : s.data.reverse.take 4 = ['x', 'd', 'm', '.'] := by
    unfold endsWithMdx at h
    exact of_decide_eq_true h
  apply String.ext
  rw [String.data_append]
  show s.data = stripMdxChars s.data ++ ('.' :: 'm' :: 'd' :: 'x' :: [])
  unfold stripMdxChars
  rw [if_pos h']
  have hl : s.data.reverse = ['x', 'd', 'm', '.'] ++ s.data.reverse.drop 4 := by
    conv_lhs => rw [← List.take_append_drop 4 s.data.reverse]
    rw [h']
  calc s.data = s.data.reverse.reverse := (List.reverse_reverse _).symm
    _ = (['x', 'd', 'm', '.'] ++ s.data.reverse.drop 4).reverse := by rw [← hl]
    _ = (s.data.reverse.drop 4).reverse ++ ('.' :: 'm' :: 'd' :: 'x' :: []) := by
        simp

/-! ## Helper lemmas: frontmatter parsing -/

theorem splitFirstColon_append (k v : List Char) (hk : ':' ∉ k) :
    splitFirstColon (k ++ ':' :: v) = some (k, v) := by
  induction k with
  | nil => simp [splitFirstColon]
  | cons c cs ih =>
    have hc : c ≠ ':' := fun hh => hk (hh ▸ List.mem_cons_self c cs)
    have hcs : ':' ∉ cs := fun hh => hk (List.mem_cons_of_mem c hh)
    simp only [List.cons_append]
    unfold splitFirstColon
    rw [if_neg hc, ih hcs]
    rfl

theorem trimSpaces_cons_space (l : List Char) :
    trimSpaces (' ' :: l) = trimSpaces l := by
  simp [trimSpaces, List.dropWhile]

theorem parseLine_lineData (p : String × String) (hp : wfField p) :
    parseLine (lineData p) = some p := by
  obtain ⟨h1, h2, h3, h4, h5, h6, h7⟩ := hp
  unfold parseLine lineData
  rw [splitFirstColon_append p.1.data (' ' :: p.2.data) h2]
  simp only [trimSpaces_cons_space, h4, h6, h7, if_neg h1]

theorem newline_not_in_lineData (p : String × String) (hp : wfField p) :
    '\n' ∉ lineData p := by
  obtain ⟨h1, h2, h3, h4, h5, h6, h7⟩ := hp
  unfold lineData
  intro hmem
  rcases List.mem_append.mp hmem with h | h
  · exact h3 h
  · rcases h with _ | ⟨_, h⟩
    · rcases h with _ | ⟨_, h⟩
      exact h5 h

theorem lineData_ne_close (p : String × String) :
    lineData p ≠ ['-', '-', '-'] := by
  intro h
  have : ':' ∈ lineData p := by
    unfold lineData
    exact List.mem_append.mpr (Or.inr (List.mem_cons_self _ _))
  rw [h] at this
  simp at this

theorem splitOnNl_foldr_lines (fields : Metadata) (base : List Char)
    (h : ∀ p ∈ fields, wfField p) :
    splitOnNl (fields.foldr (fun p acc => lineData p ++ '\n' :: acc) base) =
      fields.map lineData ++ splitOnNl base := by
  induction fields with
  | nil => simp
  | cons p ps ih =>
    have hp : wfField p := h p (List.mem_cons_self p ps)
    have hps : ∀ q ∈ ps, wfField q := fun q hq => h q (List.mem_cons_of_mem p hq)
    simp only [List.foldr_cons, List.map_cons, List.cons_append]
    rw [splitOnNl_append_newline _ _ (newline_not_in_lineData p hp), ih hps]

theorem findCloseIdx_lines (fields : Metadata)
    (tail : List (List Char)) :
    findCloseIdx (fields.map lineData ++ ['-', '-', '-'] :: tail) =
      some fields.length := by
  induction fields with
  | nil => simp [findCloseIdx]
  | cons p ps ih =>
    simp only [List.map_cons, List.cons_append]
    unfold findCloseIdx
    rw [if_neg (lineData_ne_close p), ih]
    rfl

theorem parsePairs_map_lineData (fields : Metadata)
    (h : ∀ p ∈ fields, wfField p) :
    parsePairs (fields.map lineData) = fields := by
  induction fields with
  | nil => rfl
  | cons p ps ih =>
    have hp : wfField p := h p (List.mem_cons_self p ps)
    have hps : ∀ q ∈ ps, wfField q := fun q hq => h q (List.mem_cons_of_mem p hq)
    simp only [List.map_cons, parsePairs, List.filterMap_cons,
      parseLine_lineData p hp]
    exact congrArg (p :: ·) (ih hps)

/-! ## Helper lemmas: the insertion sort model -/

theorem mem_insertJS {α : Type} (cmp : α → α → Int) (x : α) (l : List α)
    (a : α) : a ∈ insertJS cmp x l ↔ a = x ∨ a ∈ l := by
  induction l with
  | nil => simp [insertJS]
  | cons y ys ih =>
    unfold insertJS
    by_cases h : cmp x y < 0
    · rw [if_pos h]
      simp only [List.mem_cons]
    · rw [if_neg h]
      simp only [List.mem_cons, ih]
      tauto

theorem length_insertJS {α : Type} (cmp : α → α → Int) (x : α) (l : List α) :
    (insertJS cmp x l).length = l.length + 1 := by
  induction l with
  | nil => rfl
  | cons y ys ih =>
    unfold insertJS
    by_cases h : cmp x y < 0
    · rw [if_pos h]; rfl
    · rw [if_neg h]
      simp [ih]

theorem length_foldl_insertJS {α : Type} (cmp : α → α → Int) (l acc : List α) :
    (l.foldl (fun acc x => insertJS cmp x acc) acc).length =
      acc.length + l.length := by
  induction l generalizing acc with
  | nil => rfl
  | cons x xs ih =>
    simp only [List.foldl_cons]
    rw [ih, length_insertJS, List.length_cons]
    omega

theorem length_sortJS {α : Type} (cmp : α → α → Int) (l : List α) :
    (sortJS cmp l).length = l.length := by
  unfold sortJS
  rw [length_foldl_insertJS]
  simp

/-! ## Helper lemmas: the comparator on dated records -/

theorem cmpProjects_lt_iff (a b : Metadata) (da db : Nat)
    (ha : dateVal a = some da) (hb : dateVal b = some db) :
    cmpProjects a b < 0 ↔ db ≤ da := by
  unfold cmpProjects
  rw [ha, hb]
  simp only [jsltDate, decide_eq_true_eq]
  by_cases h : da < db
  · rw [if_pos h]
    constructor
    · intro hlt; omega
    · intro hle; omega
  · rw [if_neg h]
    constructor
    · intro _; omega
    · intro _; omega

theorem specDateGe_some_iff (a b : Metadata) (da db : Nat)
    (ha : dateVal a = some da) (hb : dateVal b = some db) :
    specDateGe a b = true ↔ db ≤ da := by
  simp [specDateGe, ha, hb]

theorem specDateGe_trans_dated (a b c : Metadata)
    (ha : dateVal a ≠ none) (hb : dateVal b ≠ none) (hc : dateVal c ≠ none)
    (h1 : specDateGe a b = true) (h2 : specDateGe b c = true) :
    specDateGe a c = true := by
  obtain ⟨da, hda⟩ := Option.ne_none_iff_exists'.mp ha
  obtain ⟨db, hdb⟩ := Option.ne_none_iff_exists'.mp hb
  obtain ⟨dc, hdc⟩ := Option.ne_none_iff_exists'.mp hc
  rw [specDateGe_some_iff a b da db hda hdb] at h1
  rw [specDateGe_some_iff b c db dc hdb hdc] at h2
  rw [specDateGe_some_iff a c da dc hda hdc]
  omega

theorem insertJS_sorted_dated (x : Metadata) (l : List Metadata)
    (hx : dateVal x ≠ none) (hl : ∀ m ∈ l, dateVal m ≠ none)
    (h : l.Pairwise (fun a b => specDateGe a b = true)) :
    (insertJS cmpProjects x l).Pairwise (fun a b => specDateGe a b = true) := by
  obtain ⟨dx, hdx⟩ := Option.ne_none_iff_exists'.mp hx
  induction l with
  | nil => simp [insertJS]
  | cons y ys ih =>
    have hy : dateVal y ≠ none := hl y (List.mem_cons_self y ys)
    obtain ⟨dy, hdy⟩ := Option.ne_none_iff_exists'.mp hy
    have hys : ∀ m ∈ ys, dateVal m ≠ none :=
      fun m hm => hl m (List.mem_cons_of_mem y hm)
    rw [List.pairwise_cons] at h
    obtain ⟨hyrest, hpys⟩ := h
    unfold insertJS
    by_cases hcmp : cmpProjects x y < 0
    · rw [if_pos hcmp]
      have hxy : specDateGe x y = true := by
        rw [specDateGe_some_iff x y dx dy hdx hdy]
        exact (cmpProjects_lt_iff x y dx dy hdx hdy).mp hcmp
      refine List.pairwise_cons.mpr ⟨?_, List.pairwise_cons.mpr ⟨hyrest, hpys⟩⟩
      intro z hz
      rcases List.mem_cons.mp hz with rfl | hz'
      · exact hxy
      · exact specDateGe_trans_dated x y z hx hy (hys z hz') hxy (hyrest z hz')
    · rw [if_neg hcmp]
      have hyx : specDateGe y x = true := by
        rw [specDateGe_some_iff y x dy dx hdy hdx]
        have := (cmpProjects_lt_iff x y dx dy hdx hdy).not.mp hcmp
        omega
      refine List.pairwise_cons.mpr ⟨?_, ih hys hpys⟩
      intro z hz
      rcases (mem_insertJS cmpProjects x ys z).mp hz with rfl | hz'
      · exact hyx
      · exact hyrest z hz'

theorem foldl_insertJS_sorted (l : List Metadata) :
    ∀ acc : List Metadata,
      (∀ m ∈ l, dateVal m ≠ none) →
      (∀ m ∈ acc, dateVal m ≠ none) →
      acc.Pairwise (fun a b => specDateGe a b = true) →
      (l.foldl (fun acc x => insertJS cmpProjects x acc) acc).Pairwise
        (fun a b => specDateGe a b = true) := by
  induction l with
  | nil => intro acc _ _ hp; simpa using hp
  | cons x xs ih =>
    intro acc hl hacc hp
    have hx : dateVal x ≠ none := hl x (List.mem_cons_self x xs)
    have hxs : ∀ m ∈ xs, dateVal m ≠ none :=
      fun m hm => hl m (List.mem_cons_of_mem x hm)
    simp only [List.foldl_cons]
    apply ih (insertJS cmpProjects x acc) hxs
    · intro m hm
      rcases (mem_insertJS cmpProjects x acc m).mp hm with rfl | hm'
      · exact hx
      · exact hacc m hm'
    · exact insertJS_sorted_dated x acc hx hacc hp

theorem sortJS_sorted_dated (l : List Metadata)
    (hl : ∀ m ∈ l, dateVal m ≠ none) :
    (sortJS cmpProjects l).Pairwise (fun a b => specDateGe a b = true) := by
  unfold sortJS
  exact foldl_insertJS_sorted l [] hl (by simp) (by simp)

/-! ## Helper lemmas: object spread and file lookup -/

theorem getKey_map_overwrite (m : Metadata) (k v : String)
    (h : m.any (fun p => p.1 = k) = true) :
    getKey (m.map (fun p => if p.1 = k then (k, v) else p)) k = some v := by
  induction m with
  | nil => simp at h
  | cons p ps ih =>
    by_cases hp : p.1 = k
    · simp only [List.map_cons, if_pos hp]
      show getKey ((k, v) :: ps.map _) k = some v
      unfold getKey
      rw [if_pos rfl]
    · simp only [List.any_cons, Bool.or_eq_true, decide_eq_true_eq] at h
      rcases h with h | h
      · exact absurd h hp
      · simp only [List.map_cons, if_neg hp]
        have hp' : p = (p.1, p.2) := rfl
        rw [hp']
        unfold getKey
        rw [if_neg hp]
        exact ih h

theorem getKey_append_single (m : Metadata) (k v : String)
    (h : m.any (fun p => p.1 = k) = false) :
    getKey (m ++ [(k, v)]) k = some v := by
  induction m with
  | nil => simp [getKey]
  | cons p ps ih =>
    simp only [List.any_cons, Bool.or_eq_false_iff, decide_eq_false_iff_not] at h
    obtain ⟨hp, hps⟩ := h
    simp only [List.cons_append]
    have hp' : p = (p.1, p.2) := rfl
    rw [hp']
    unfold getKey
    rw [if_neg hp]
    exact ih hps

theorem getKey_setKey (m : Metadata) (k v : String) :
    getKey (setKey m k v) k = some v := by
  unfold setKey
  by_cases h : m.any (fun p => p.1 = k) = true
  · rw [if_pos h]
    exact getKey_map_overwrite m k v h
  · rw [if_neg h]
    exact getKey_append_single m k v (Bool.eq_false_iff.mpr h)

theorem lookupFile_eq_none (files : List (String × String)) (name : String)
    (h : ∀ f ∈ files, f.1 ≠ name) : lookupFile files name = none := by
  induction files with
  | nil => rfl
  | cons f fs ih =>
    unfold lookupFile
    rw [if_neg (h f (List.mem_cons_self f fs))]
    exact ih (fun g hg => h g (List.mem_cons_of_mem f hg))

/-! ## Claim C3 -/

/-- C3 (counterexample): the claim says that calling `advance()` in an
`InProgress` state whose current question is unanswered is rejected as a
no-op.  In the code, `nextQuestion` has no such guard: in the freshly
mounted two-question quiz, whose current question 0 is unanswered and which
is not completed, `nextQuestion` advances the index to 1 — the state is
changed, not preserved. -/
theorem nextQuestion_unanswered_cex :
    (initQuiz sampleQuiz).isQuizCompleted = false ∧
    (initQuiz sampleQuiz).userAnswers.get? (initQuiz sampleQuiz).currentQuestion =
      some none ∧
    nextQuestion sampleQuiz (initQuiz sampleQuiz) ≠ initQuiz sampleQuiz := by
  refine ⟨rfl, rfl, ?_⟩
  intro h
  have := congrArg QuizState.currentQuestion h
  simp [nextQuestion, initQuiz, sampleQuiz] at this

/-- C3 (amended): the no-op guard exists only at the UI layer.  The raw
`nextQuestion` transition advances even when the current question is
unanswered, but the advance control is rendered only inside the
`showResult && ...` block, so an advance event can only be dispatched once
the current question is answered: for every state in which the current
question is unanswered, the dispatchable advance action `uiAdvance` leaves
the state unchanged. -/
theorem uiAdvance_unanswered_noop (questions : List QuizQuestion)
    (s : QuizState) (_hc : s.isQuizCompleted = false)
    (h : s.userAnswers.get? s.currentQuestion = some none) :
    uiAdvance questions s = s := by
  unfold uiAdvance showResult
  rw [h]
  simp

/-- Witness for `uiAdvance_unanswered_noop` at the freshly mounted
two-question quiz. -/
theorem uiAdvance_unanswered_noop_witness :
    ((initQuiz sampleQuiz).isQuizCompleted = false ∧
      (initQuiz sampleQuiz).userAnswers.get?
        (initQuiz sampleQuiz).currentQuestion = some none) ∧
    uiAdvance sampleQuiz (initQuiz sampleQuiz) = initQuiz sampleQuiz :=
  ⟨⟨rfl, rfl⟩, uiAdvance_unanswered_noop sampleQuiz (initQuiz sampleQuiz) rfl rfl⟩

/-! ## Claim C4 -/

/-- C4 (counterexample): the claim says malformed quiz definitions — an
empty question list or a `correctOptionIndex` out of range — fail at
construction with `InvalidQuizDefinition`.  The component performs no
validation at all: for both malformed inputs the spec-side constructor
`specQuizConstruct` rejects, yet the code constructs the ordinary initial
state (a usable quiz instance) with no error value of any kind. -/
theorem quiz_construction_unvalidated_cex :
    specQuizConstruct [] = Except.error "InvalidQuizDefinition" ∧
    initQuiz [] = ⟨0, [], false⟩ ∧
    specQuizConstruct [badQuestion] = Except.error "InvalidQuizDefinition" ∧
    initQuiz [badQuestion] = ⟨0, [none], false⟩ := by
  refine ⟨rfl, rfl, ?_, rfl⟩
  rfl

/-- C4 (amended): construction never validates and never fails — every
question list, including the malformed ones, yields the initial state with
index 0, one unanswered slot per question and the completed flag unset.  An
out-of-range `correctAnswer` silently yields a question that no selectable
option (an index within the option list) can ever score as correct. -/
theorem initQuiz_no_validation (questions : List QuizQuestion) :
    initQuiz questions =
      ⟨0, List.replicate questions.length none, false⟩ ∧
    ∀ q : QuizQuestion, q.options.length ≤ q.correctAnswer →
      ∀ i : Nat, i < q.options.length → score [q] [some i] = 0 := by
  refine ⟨rfl, ?_⟩
  intro q hq i hi
  have hne : i ≠ q.correctAnswer := by omega
  have hbeq : (i == q.correctAnswer) = false := by simpa using hne
  simp [score, List.countP, List.countP.go, hbeq]

/-- Witness for `initQuiz_no_validation` at the out-of-range question. -/
theorem initQuiz_no_validation_witness :
    initQuiz [badQuestion] = ⟨0, List.replicate 1 none, false⟩ ∧
    (badQuestion.options.length ≤ badQuestion.correctAnswer ∧
      0 < badQuestion.options.length ∧ score [badQuestion] [some 0] = 0) :=
  ⟨(initQuiz_no_validation [badQuestion]).1,
    by decide,
    by decide,
    (initQuiz_no_validation [badQuestion]).2 badQuestion (by decide) 0 (by decide)⟩

/-! ## Claim C5 -/

/-- C5: the specified two-question scenario.  Selecting the correct option
0 on question 1, advancing, selecting the incorrect option 1 on question 2
(whose correct option is 2) and advancing ends with the quiz completed and
score 1; the score query on the intermediate state (one question answered)
already reports 1; and a second selection on an already-answered question
is a no-op. -/
theorem quiz_scenario_score :
    (nextQuestion sampleQuiz
        (handleAnswer
          (nextQuestion sampleQuiz (handleAnswer (initQuiz sampleQuiz) 0))
          1)).isQuizCompleted = true ∧
    score sampleQuiz
        (nextQuestion sampleQuiz
          (handleAnswer
            (nextQuestion sampleQuiz (handleAnswer (initQuiz sampleQuiz) 0))
            1)).userAnswers = 1 ∧
    score sampleQuiz (handleAnswer (initQuiz sampleQuiz) 0).userAnswers = 1 ∧
    handleAnswer (handleAnswer (initQuiz sampleQuiz) 0) 3 =
      handleAnswer (initQuiz sampleQuiz) 0 := by
  refine ⟨?_, ?_, ?_, ?_⟩ <;> decide

/-! ## Claim C1 -/

/-- C1 (counterexample): the claim says the returned sequence is sorted by
date descending with a missing date comparing as earlier than any present
date.  On the collection `cexC1files` (a dated document listed before an
undated one) the comparator answers `-1` ("keep in order") for the undated
record — `NaN` comparisons are false — so the sort reverses the pair and the
undated record comes out FIRST, before a record dated 2024-01-02, violating
`date(A) >= date(B)` under the missing-date-is-minimum rule. -/
theorem getProjects_undated_first_cex :
    getProjects cexC1files none =
      [[("title", "A"), ("slug", "a")],
        [("date", "2024-01-02"), ("slug", "b")]] ∧
    dateVal [("title", "A"), ("slug", "a")] = none ∧
    dateVal [("date", "2024-01-02"), ("slug", "b")] = some 20240102 ∧
    specDateGe [("title", "A"), ("slug", "a")]
      [("date", "2024-01-02"), ("slug", "b")] = false ∧
    ¬ (getProjects cexC1files none).Pairwise
        (fun a b => specDateGe a b = true) := by
  refine ⟨by decide, by decide, by decide, by decide, ?_⟩
  intro h
  have h2 : getProjects cexC1files none =
      [[("title", "A"), ("slug", "a")],
        [("date", "2024-01-02"), ("slug", "b")]] := by decide
  rw [h2] at h
  rw [List.pairwise_cons] at h
  have := h.1 [("date", "2024-01-02"), ("slug", "b")] (by simp)
  simp [specDateGe] at this
  revert this
  decide

/-- C1 (amended): the descending-sort invariant holds for collections in
which every document's publication date is present and parseable: any two
returned records A before B then satisfy `date(A) >= date(B)`.  The
missing-date clause of the claim is false (see the counterexample): a record
with an absent or unparseable date is not treated as minimal — the
comparator reports every pair involving it as already ordered, so such a
record can precede strictly newer dated records. -/
theorem getProjects_sorted_of_dates_present
    (files : List (String × String))
    (h : ∀ f ∈ files, dateVal (getProjectMetadata f.1 f.2) ≠ none) :
    (getProjects files none).Pairwise (fun a b => specDateGe a b = true) := by
  show (sortJS cmpProjects
      (files.map fun f => getProjectMetadata f.1 f.2)).Pairwise
      (fun a b => specDateGe a b = true)
  apply sortJS_sorted_dated
  intro m hm
  rcases List.mem_map.mp hm with ⟨f, hf, rfl⟩
  exact h f hf

/-- Witness for `getProjects_sorted_of_dates_present` on a concrete
three-document collection with distinct dates. -/
theorem getProjects_sorted_of_dates_present_witness :
    (∀ f ∈ [("a.mdx", "---\ndate: 2024-01-01\n---\nA"),
        ("b.mdx", "---\ndate: 2024-01-02\n---\nB"),
        ("c.mdx", "---\ndate: 2023-05-05\n---\nC")],
      dateVal (getProjectMetadata f.1 f.2) ≠ none) ∧
    (getProjects [("a.mdx", "---\ndate: 2024-01-01\n---\nA"),
        ("b.mdx", "---\ndate: 2024-01-02\n---\nB"),
        ("c.mdx", "---\ndate: 2023-05-05\n---\nC")] none).Pairwise
      (fun a b => specDateGe a b = true) :=
  ⟨by decide,
    getProjects_sorted_of_dates_present
      [("a.mdx", "---\ndate: 2024-01-01\n---\nA"),
        ("b.mdx", "---\ndate: 2024-01-02\n---\nB"),
        ("c.mdx", "---\ndate: 2023-05-05\n---\nC")] (by decide)⟩

/-! ## Claim C2 -/

/-- C2 (counterexample): the claim says `limit = 0` returns an empty
sequence (`min(0, totalDocuments) = 0` items).  In the code `if (limit)`
treats `0` as falsy, so the truncation branch is skipped: on a one-document
collection, `getProjects` with limit `0` returns the full one-element
sequence, not the empty one. -/
theorem getProjects_limit_zero_cex :
    getProjects [("a.mdx", "---\ntitle: A\n---\nA")] (some 0) =
      getProjects [("a.mdx", "---\ntitle: A\n---\nA")] none ∧
    (getProjects [("a.mdx", "---\ntitle: A\n---\nA")] (some 0)).length = 1 := by
  constructor <;> decide

/-- C2 (amended): for a positive limit `k` the claim holds: `getProjects`
with limit `k` returns exactly `min k totalDocuments` records and they are
the prefix of the full (no-limit) sequence of length `k`; with limit `0`,
however, the code returns the full sequence (0 is falsy), not the empty
one. -/
theorem getProjects_limit_spec (files : List (String × String)) (k : Nat) :
    (1 ≤ k →
      getProjects files (some k) = (getProjects files none).take k ∧
      (getProjects files (some k)).length = min k files.length) ∧
    getProjects files (some 0) = getProjects files none := by
  constructor
  · intro hk
    have hk0 : ¬ k = 0 := by omega
    constructor
    · show (if k = 0 then sortJS cmpProjects
          (files.map fun f => getProjectMetadata f.1 f.2)
        else (sortJS cmpProjects
          (files.map fun f => getProjectMetadata f.1 f.2)).take k) = _
      rw [if_neg hk0]
      rfl
    · show (if k = 0 then sortJS cmpProjects
          (files.map fun f => getProjectMetadata f.1 f.2)
        else (sortJS cmpProjects
          (files.map fun f => getProjectMetadata f.1 f.2)).take k).length = _
      rw [if_neg hk0, List.length_take, length_sortJS, List.length_map]
  · show (if 0 = 0 then sortJS cmpProjects
        (files.map fun f => getProjectMetadata f.1 f.2)
      else (sortJS cmpProjects
        (files.map fun f => getProjectMetadata f.1 f.2)).take 0) = _
    rw [if_pos rfl]
    rfl

/-- Witness for `getProjects_limit_spec` with limit 1 on a two-document
collection. -/
theorem getProjects_limit_spec_witness :
    (1 ≤ 1 ∧
      getProjects cexC1files (some 1) = (getProjects cexC1files none).take 1 ∧
      (getProjects cexC1files (some 1)).length = min 1 cexC1files.length) ∧
    getProjects cexC1files (some 0) = getProjects cexC1files none :=
  ⟨⟨Nat.le_refl 1, ((getProjects_limit_spec cexC1files 1).1 (Nat.le_refl 1)).1,
      ((getProjects_limit_spec cexC1files 1).1 (Nat.le_refl 1)).2⟩,
    (getProjects_limit_spec cexC1files 0).2⟩

/-! ## Claim C6 -/

/-- C6 (counterexample): the claim says Scanner failures (missing
collection, unreadable document) propagate to the caller as a distinct
`CollectionNotFound` / `DocumentReadFailure` error.  `getProjectBySlug`
wraps the whole body in `try { ... } catch { return null }`: an I/O error
and a missing file both come back as `null` — exactly the value of the
ordinary not-found result on an empty collection — so no failure is
propagated and the two outcomes are indistinguishable. -/
theorem getProjectBySlug_error_as_none_cex :
    getProjectBySlug (fun _ => Except.error FsError.ioError) "a" = none ∧
    getProjectBySlug (fun _ => Except.error FsError.notFound) "a" = none ∧
    getProjectBySlug (fsOfList []) "a" = none :=
  ⟨rfl, rfl, rfl⟩

/-- C6 (amended): every read failure is swallowed: whenever the underlying
read of `slug ++ ".mdx"` throws — for any reason — `getProjectBySlug`
catches the exception and returns the ordinary absent result `null`, so the
caller cannot distinguish a read failure from a missing document. -/
theorem getProjectBySlug_swallows_errors
    (fs : String → Except FsError String) (slug : String) (e : FsError)
    (h : fs (slug ++ ".mdx") = Except.error e) :
    getProjectBySlug fs slug = none := by
  simp [getProjectBySlug, h]

/-- Witness for `getProjectBySlug_swallows_errors` with an I/O error. -/
theorem getProjectBySlug_swallows_errors_witness :
    (fun _ : String => Except.error (ε := FsError) (α := String)
        FsError.ioError) ("x" ++ ".mdx") = Except.error FsError.ioError ∧
    getProjectBySlug (fun _ => Except.error FsError.ioError) "x" = none :=
  ⟨rfl, getProjectBySlug_swallows_errors
    (fun _ => Except.error FsError.ioError) "x" FsError.ioError rfl⟩

/-! ## Claim C7 -/

/-- C7: lookup semantics of `getProjectBySlug` over a collection whose
files carry the `.mdx` extension.  If no file's derived identifier equals
the requested slug, the result is the explicit absent value `none` — no
exception escapes, the error is caught.  If some listed file's derived
identifier equals the slug (and it is the file the read resolves to, i.e.
the first and unique file of that name), the result is that document's
parsed metadata — with the derived slug — and body. -/
theorem getProjectBySlug_lookup_semantics (files : List (String × String))
    (slug : String) :
    ((∀ f ∈ files, endsWithMdx f.1 = true) →
      (∀ f ∈ files, stripMdx f.1 ≠ slug) →
      getProjectBySlug (fsOfList files) slug = none) ∧
    (∀ f : String × String, f ∈ files → endsWithMdx f.1 = true →
      stripMdx f.1 = slug → lookupFile files f.1 = some f.2 →
      getProjectBySlug (fsOfList files) slug =
        some ⟨setKey (matter f.2).1 "slug" slug, (matter f.2).2⟩) := by
  constructor
  · intro hmdx hne
    have hnone : lookupFile files (slug ++ ".mdx") = none := by
      apply lookupFile_eq_none
      intro f hf heq
      apply hne f hf
      rw [heq, stripMdx_append]
    simp [getProjectBySlug, fsOfList, hnone]
  · intro f hf hmdxf hslug hlook
    have hfile : f.1 = slug ++ ".mdx" := by
      rw [← hslug]
      exact mdx_decomp f.1 hmdxf
    rw [hfile] at hlook
    simp [getProjectBySlug, fsOfList, hlook]

/-- Witness for `getProjectBySlug_lookup_semantics` on a one-file
collection, exercising both the no-match and the match case. -/
theorem getProjectBySlug_lookup_semantics_witness :
    ((∀ f ∈ [("p.mdx", "hello")], endsWithMdx f.1 = true) ∧
      (∀ f ∈ [("p.mdx", "hello")], stripMdx f.1 ≠ "q") ∧
      getProjectBySlug (fsOfList [("p.mdx", "hello")]) "q" = none) ∧
    (("p.mdx", "hello") ∈ [("p.mdx", "hello")] ∧
      getProjectBySlug (fsOfList [("p.mdx", "hello")]) "p" =
        some ⟨setKey (matter "hello").1 "slug" "p", (matter "hello").2⟩) :=
  ⟨⟨by decide, by decide,
      (getProjectBySlug_lookup_semantics [("p.mdx", "hello")] "q").1
        (by decide) (by decide)⟩,
    ⟨by decide,
      (getProjectBySlug_lookup_semantics [("p.mdx", "hello")] "p").2
        ("p.mdx", "hello") (by decide) (by decide) (by decide) rfl⟩⟩

/-! ## Claim C8 -/

theorem matter_eq_of_split (s : String) (f : List Char) (r : List (List Char))
    (hsp : splitOnNl s.data = f :: r) :
    matter s =
      if f = ['-', '-', '-'] then
        match findCloseIdx r with
        | some i => (parsePairs (r.take i), ⟨joinTail (r.drop (i + 1))⟩)
        | none => (parsePairs r, "")
      else ([], s) := by
  unfold matter
  rw [hsp]

/-- C8: frontmatter parsing.  First conjunct: a document assembled from a
leading delimited block of well-formed `key: value` fields and a body
parses to exactly those fields, with the raw remainder after the closing
delimiter (the newline plus the body) as content, unchanged.  Second
conjunct: a document whose first line is not the delimiter parses without
failing to an empty field set with the entire original text as content. -/
theorem matter_frontmatter_spec (fields : Metadata) (body : String)
    (h : ∀ p ∈ fields, wfField p) :
    matter (specMkDoc fields body) = (fields, "\n" ++ body) ∧
    ∀ s : String, (splitOnNl s.data).head? ≠ some ['-', '-', '-'] →
      matter s = ([], s) := by
  constructor
  · have hnl : '\n' ∉ (['-', '-', '-'] : List Char) := by decide
    have hbase : splitOnNl (['-', '-', '-', '\n'] ++ body.data) =
        ['-', '-', '-'] :: splitOnNl body.data := by
      show splitOnNl (['-', '-', '-'] ++ '\n' :: body.data) = _
      exact splitOnNl_append_newline _ _ hnl
    have hdoc : splitOnNl (specMkDoc fields body).data =
        ['-', '-', '-'] ::
          (fields.map lineData ++ ['-', '-', '-'] :: splitOnNl body.data) := by
      show splitOnNl (['-', '-', '-'] ++ '\n' ::
          fields.foldr (fun p acc => lineData p ++ '\n' :: acc)
            (['-', '-', '-', '\n'] ++ body.data)) = _
      rw [splitOnNl_append_newline _ _ hnl,
        splitOnNl_foldr_lines fields _ h, hbase]
    rw [matter_eq_of_split _ _ _ hdoc, if_pos rfl,
      findCloseIdx_lines fields (splitOnNl body.data)]
    show (parsePairs ((fields.map lineData ++
        ['-', '-', '-'] :: splitOnNl body.data).take fields.length),
      (⟨joinTail ((fields.map lineData ++
        ['-', '-', '-'] :: splitOnNl body.data).drop (fields.length + 1))⟩ :
          String)) = (fields, "\n" ++ body)
    have htake : (fields.map lineData ++
        ['-', '-', '-'] :: splitOnNl body.data).take fields.length =
        fields.map lineData :=
      List.take_left' (by simp)
    have hdrop : (fields.map lineData ++
        ['-', '-', '-'] :: splitOnNl body.data).drop (fields.length + 1) =
        splitOnNl body.data := by
      rw [List.append_cons]
      exact List.drop_left' (by simp)
    rw [htake, hdrop, parsePairs_map_lineData fields h, joinTail_splitOnNl]
    have hstr : (⟨'\n' :: body.data⟩ : String) = "\n" ++ body := by
      apply String.ext
      rw [String.data_append]
      rfl
    rw [hstr]
  · intro s hs
    cases hsp : splitOnNl s.data with
    | nil => exact absurd hsp (splitOnNl_ne_nil s.data)
    | cons f r =>
      have hf : f ≠ ['-', '-', '-'] := by
        intro heq
        apply hs
        rw [hsp, heq]
        rfl
      rw [matter_eq_of_split s f r hsp, if_neg hf]

/-- Witness for `matter_frontmatter_spec` at the specification's example:
metadata `title: T`, `date: 2024-01-01` and body `Hello`, plus a
delimiter-free text. -/
theorem matter_frontmatter_spec_witness :
    (∀ p ∈ ([("title", "T"), ("date", "2024-01-01")] : Metadata), wfField p) ∧
    matter (specMkDoc [("title", "T"), ("date", "2024-01-01")] "Hello") =
      ([("title", "T"), ("date", "2024-01-01")], "\n" ++ "Hello") ∧
    matter "Hello" = ([], "Hello") :=
  ⟨by decide,
    (matter_frontmatter_spec [("title", "T"), ("date", "2024-01-01")] "Hello"
      (by decide)).1,
    (matter_frontmatter_spec [] "" (by decide)).2 "Hello" (by decide)⟩

/-! ## Claim C10 -/

/-- C10: the slug is always the filename-derived one.  First conjunct: for
any file name ending in `.mdx` (written `base ++ ".mdx"`) and any file
contents — in particular contents whose frontmatter declares its own `slug`
field — the normalised record's `slug` is the file name with the trailing
`.mdx` removed; the spread `{...data, slug}` silently overwrites any
frontmatter slug.  Second conjunct: every successful `getProjectBySlug s`
result carries `metadata.slug = s`, again regardless of the document's own
frontmatter. -/
theorem slug_derived_from_filename :
    (∀ base contents : String,
      getKey (getProjectMetadata (base ++ ".mdx") contents) "slug" =
        some base) ∧
    ∀ (fs : String → Except FsError String) (slug : String) (p : Project),
      getProjectBySlug fs slug = some p →
      getKey p.metadata "slug" = some slug := by
  constructor
  · intro base contents
    unfold getProjectMetadata
    rw [stripMdx_append]
    exact getKey_setKey _ _ _
  · intro fs slug p h
    unfold getProjectBySlug at h
    cases hfs : fs (slug ++ ".mdx") with
    | error e => rw [hfs] at h; exact absurd h (by simp)
    | ok contents =>
      rw [hfs] at h
      have hp : (⟨setKey (matter contents).1 "slug" slug,
          (matter contents).2⟩ : Project) = p := by
        exact Option.some.inj h
      rw [← hp]
      exact getKey_setKey _ _ _

/-- Witness for `slug_derived_from_filename`: a document that declares
`slug: evil` in its frontmatter still comes back with the filename-derived
slug, both from the normaliser and from `getProjectBySlug`. -/
theorem slug_derived_from_filename_witness :
    getKey (getProjectMetadata ("my-post" ++ ".mdx")
        "---\nslug: evil\n---\nx") "slug" = some "my-post" ∧
    (getProjectBySlug (fsOfList [("p.mdx", "---\nslug: evil\n---\nx")]) "p" =
        some ⟨[("slug", "p")], "\nx"⟩ ∧
      getKey (⟨[("slug", "p")], "\nx"⟩ : Project).metadata "slug" =
        some "p") :=
  ⟨slug_derived_from_filename.1 "my-post" "---\nslug: evil\n---\nx",
    by decide,
    slug_derived_from_filename.2
      (fsOfList [("p.mdx", "---\nslug: evil\n---\nx")]) "p"
      ⟨[("slug", "p")], "\nx"⟩ (by decide)⟩
